import Mathlib

/-!
Formal model of the Shopify product scraper (src/shopfiy_scraper.py).

The script flattens arbitrarily nested JSON product records into flat
key-value mappings, discovers a fixed column set from a sample of the
catalog, and writes one CSV row per product (or per variant) aligned to
that column set, paginating through the listing endpoint until an empty
page is seen.

The embedding below is shallow: JSON values are the inductive type
JVal; Python dicts are association lists in insertion order (keys
unique in any dict the program actually builds); Python dict(items)
construction, which keeps the first position and the last value for a
duplicated key, is the function pydict; network effects are an oracle
(structure World); fallible code returns Option, with none marking a
Python exception that the script does not catch.
-/

/-- Scalar JSON leaf values as produced by json.loads: strings, integers,
booleans and null. -/
inductive Scalar where
  | s (v : String)
  | i (v : Int)
  | b (v : Bool)
  | null
deriving DecidableEq, Repr

/-- A JSON value: a scalar, an object (Python dict, modelled as an
association list in insertion order), or an array. -/
inductive JVal where
  | prim (v : Scalar)
  | obj (fields : List (String × JVal))
  | arr (elems : List JVal)
deriving Repr

mutual
/-- Decidable equality on JSON values (the deriving handler does not
support the nested inductive, so it is written out). -/
def decEqJVal : (a b : JVal) → Decidable (a = b)
  | .prim x, .prim y =>
    match decEq x y with
    | isTrue h => isTrue (by rw [h])
    | isFalse h => isFalse (by intro hh; cases hh; exact h rfl)
  | .prim _, .obj _ => isFalse nofun
  | .prim _, .arr _ => isFalse nofun
  | .obj _, .prim _ => isFalse nofun
  | .obj f1, .obj f2 =>
    match decEqFields f1 f2 with
    | isTrue h => isTrue (by rw [h])
    | isFalse h => isFalse (by intro hh; cases hh; exact h rfl)
  | .obj _, .arr _ => isFalse nofun
  | .arr _, .prim _ => isFalse nofun
  | .arr _, .obj _ => isFalse nofun
  | .arr e1, .arr e2 =>
    match decEqElems e1 e2 with
    | isTrue h => isTrue (by rw [h])
    | isFalse h => isFalse (by intro hh; cases hh; exact h rfl)

/-- Decidable equality on dict field lists. -/
def decEqFields : (a b : List (String × JVal)) → Decidable (a = b)
  | [], [] => isTrue rfl
  | [], _ :: _ => isFalse nofun
  | _ :: _, [] => isFalse nofun
  | (k1, v1) :: r1, (k2, v2) :: r2 =>
    match decEq k1 k2, decEqJVal v1 v2, decEqFields r1 r2 with
    | isTrue h1, isTrue h2, isTrue h3 => isTrue (by rw [h1, h2, h3])
    | isFalse h1, _, _ => isFalse (by intro hh; cases hh; exact h1 rfl)
    | _, isFalse h2, _ => isFalse (by intro hh; cases hh; exact h2 rfl)
    | _, _, isFalse h3 => isFalse (by intro hh; cases hh; exact h3 rfl)

/-- Decidable equality on array element lists. -/
def decEqElems : (a b : List JVal) → Decidable (a = b)
  | [], [] => isTrue rfl
  | [], _ :: _ => isFalse nofun
  | _ :: _, [] => isFalse nofun
  | v1 :: r1, v2 :: r2 =>
    match decEqJVal v1 v2, decEqElems r1 r2 with
    | isTrue h1, isTrue h2 => isTrue (by rw [h1, h2])
    | isFalse h1, _ => isFalse (by intro hh; cases hh; exact h1 rfl)
    | _, isFalse h2 => isFalse (by intro hh; cases hh; exact h2 rfl)
end

instance : DecidableEq JVal := decEqJVal

/-- A record is a Python dict from string keys to JSON values, in
insertion order. -/
abbrev Record := List (String × JVal)

/-- Python str() of a scalar: strings pass through unquoted, integers
print in decimal, booleans as True and False, None as the word None. -/
def Scalar.pyStr : Scalar → String
  | .s v => v
  | .i v => toString v
  | .b true => "True"
  | .b false => "False"
  | .null => "None"

/-- Python repr() of a string, for strings of printable characters with
no quote or backslash inside (the only strings the development
evaluates): CPython wraps in single quotes unless the string contains a
single quote and no double quote, in which case it wraps in double
quotes. The quote characters themselves are built from code points so
concrete outputs can be written down. -/
def pyQuote (v : String) : String :=
  let sq := String.mk [Char.ofNat 39]
  let dq := String.mk [Char.ofNat 34]
  if v.data.contains (Char.ofNat 39) && !(v.data.contains (Char.ofNat 34)) then
    dq ++ v ++ dq
  else
    sq ++ v ++ sq

/-- Python repr() of a scalar: like str() except strings are quoted. -/
def Scalar.pyRepr : Scalar → String
  | .s v => pyQuote v
  | x => x.pyStr

mutual
/-- Python repr() of a JSON value: dict and list display forms, with
keys and nested values shown by repr. -/
def JVal.pyRepr : JVal → String
  | .prim v => v.pyRepr
  | .obj fields => "\x7b" ++ reprFields fields ++ "\x7d"
  | .arr elems => "[" ++ reprElems elems ++ "]"

/-- Comma-separated repr of the key-value pairs of a dict. -/
def reprFields : List (String × JVal) → String
  | [] => ""
  | [(k, v)] => pyQuote k ++ ": " ++ v.pyRepr
  | (k, v) :: rest => pyQuote k ++ ": " ++ v.pyRepr ++ ", " ++ reprFields rest

/-- Comma-separated repr of the elements of a list. -/
def reprElems : List JVal → String
  | [] => ""
  | [v] => v.pyRepr
  | v :: rest => v.pyRepr ++ ", " ++ reprElems rest
end

/-- Python str() of a JSON value: strings pass through unquoted, nested
structures fall back to their repr (this is what map(str, v) applies to
each list element before joining). -/
def JVal.pyStr : JVal → String
  | .prim v => v.pyStr
  | v => v.pyRepr

/-- Python bar-join: the pipe-separated concatenation that the script
builds with the join method on the separator string. -/
def joinBar : List String → String
  | [] => ""
  | [x] => x
  | x :: rest => x ++ "|" ++ joinBar rest

/-- One step of Python dict construction: inserting a pair whose key is
already present overwrites the value in place (keeping the first
position); a fresh key is appended at the end. -/
def dictInsert (acc : List (String × JVal)) (kv : String × JVal) : List (String × JVal) :=
  if acc.any (fun p => p.1 = kv.1) then
    acc.map (fun p => if p.1 = kv.1 then (p.1, kv.2) else p)
  else
    acc ++ [kv]

/-- Python dict(items): keys in first-occurrence order, each mapped to
its last value in the item list. -/
def pydict (items : List (String × JVal)) : List (String × JVal) :=
  items.foldl dictInsert []

/-- Python isinstance(v, dict). -/
def JVal.isDict : JVal → Bool
  | .obj _ => true
  | _ => false

mutual
/-- The per-value branch of flatten_dict from the source: given the
already combined key new_key for this value, produce the item pairs the
loop body appends. A nested dict contributes the items of the recursive
flatten_dict call (hence pydict applied at that level, as dict(items)
is applied by every recursive call); a list whose first element is a
dict is walked elementwise with index-suffixed keys; any other list is
joined into one bar-separated string (empty list to empty string); any
other value passes through unchanged. -/
def flattenV (sep new_key : String) : JVal → List (String × JVal)
  | .prim v => [(new_key, .prim v)]
  | .obj fields => pydict (flattenFields sep new_key fields)
  | .arr [] => [(new_key, .prim (.s ""))]
  | .arr (e :: es) =>
    if e.isDict then
      flattenArrD sep new_key 0 (e :: es)
    else
      [(new_key, .prim (.s (joinBar ((e :: es).map JVal.pyStr))))]

/-- The loop of flatten_dict over the items of d with parent key
parent_key: each key k is combined into new_key (k itself when the
parent key is empty, otherwise parent_key, separator, k) and the value
branch runs. -/
def flattenFields (sep parent_key : String) : List (String × JVal) → List (String × JVal)
  | [] => []
  | (k, v) :: rest =>
    flattenV sep (if parent_key = "" then k else parent_key ++ sep ++ k) v
      ++ flattenFields sep parent_key rest

/-- The enumerate loop of flatten_dict over a list whose first element
is a dict, with i the running index: a dict element is flattened under
the index-suffixed key (dict applied to the recursive result, as in the
source), a non-dict element is emitted unchanged under the
index-suffixed key. The index suffix uses a literal underscore
regardless of sep, as in the source f-string. -/
def flattenArrD (sep new_key : String) (i : Nat) : List JVal → List (String × JVal)
  | [] => []
  | item :: rest =>
    (match item with
      | .obj f => pydict (flattenFields sep (new_key ++ "_" ++ toString i) f)
      | _ => [(new_key ++ "_" ++ toString i, item)])
      ++ flattenArrD sep new_key (i + 1) rest
end

/-- flatten_dict(d, parent_key, sep): build the item list and apply
dict to it. The script always calls it with parent_key the empty
string and sep the underscore. -/
def flatten_dict (d : Record) (parent_key : String) (sep : String) : Record :=
  pydict (flattenFields sep parent_key d)

/-- Python dict lookup d[k] (on a dict, i.e. an association list with
unique keys, this is the first and only binding of k). -/
def alGet : List (String × JVal) → String → Option JVal
  | [], _ => none
  | (k, v) :: rest, key => if k = key then some v else alGet rest key

/-- Python d.get(k, default). -/
def dictGetD (d : List (String × JVal)) (k : String) (dflt : JVal) : JVal :=
  (alGet d k).getD dflt

/-- The keys of a dict, in order. -/
def keysOf (d : List (String × JVal)) : List String :=
  d.map Prod.fst

/-- Adding an element to a Python set, modelled as a duplicate-free
list in insertion order (only the sorted contents of the set are ever
observed by the script). -/
def setAdd (s : List String) (x : String) : List String :=
  if x ∈ s then s else s ++ [x]

/-- set.update: add every element of a list to the set. -/
def setUpdate (s : List String) (xs : List String) : List String :=
  xs.foldl setAdd s

/-- Lexicographic comparison of character lists by code point, the
comparison Python sorted applies to strings. -/
def charListLe : List Char → List Char → Bool
  | [], _ => true
  | _ :: _, [] => false
  | a :: as, b :: bs =>
    if a < b then true
    else if a = b then charListLe as bs
    else false

/-- Python string comparison, as a proposition (proved below to agree
with the lexicographic linear order on String). -/
def pyStrLe (a b : String) : Prop :=
  charListLe a.data b.data = true

instance : DecidableRel pyStrLe :=
  fun a b => inferInstanceAs (Decidable (charListLe a.data b.data = true))

/-- get_all_product_fields: flatten every sample record, collect the
union of all flattened keys into a set, and return it sorted (Python
sorted on strings, lexicographic by code point). -/
def get_all_product_fields (products_sample : List Record) : List String :=
  List.insertionSort pyStrLe
    (products_sample.foldl
      (fun all_fields product => setUpdate all_fields (keysOf (flatten_dict product "" "_")))
      [])

/-- get_all_variant_fields: like get_all_product_fields over a list of
variant values, but a sample entry that is not a dict is skipped by the
isinstance check. -/
def get_all_variant_fields (variants_sample : List JVal) : List String :=
  List.insertionSort pyStrLe
    (variants_sample.foldl
      (fun all_fields variant =>
        match variant with
        | .obj fields => setUpdate all_fields (keysOf (flatten_dict fields "" "_"))
        | _ => all_fields)
      [])

/-- The CSV header: three fixed leading columns, the discovered product
columns, and, in variant mode, the discovered variant columns under a
variant_ name. -/
def headerCols (product_fields variant_fields : List String) (with_variants : Bool) : List String :=
  ["scraped_url", "meta_title", "meta_description"] ++ product_fields
    ++ (if with_variants then variant_fields.map (fun f => "variant_" ++ f) else [])

/-- Python iteration over a JSON value, as used by the for loop over
complete_product of "variants" and by list.extend: a list yields its
elements, a dict yields its keys, a string yields its one-character
substrings; iterating an int, bool or None raises TypeError (none). -/
def pyIterate : JVal → Option (List JVal)
  | .arr l => some l
  | .obj fields => some (fields.map (fun p => JVal.prim (.s p.1)))
  | .prim (.s v) => some (v.toList.map (fun c => JVal.prim (.s (String.mk [c]))))
  | .prim _ => none

/-- Python truthiness of a JSON value: empty string, zero, False, None
and empty containers are falsy. -/
def pyTruthy : JVal → Bool
  | .prim (.s v) => !(v = "")
  | .prim (.i n) => !(n = 0)
  | .prim (.b x) => x
  | .prim .null => false
  | .obj fields => !fields.isEmpty
  | .arr l => !l.isEmpty

/-- The empty-string scalar used for the three leading columns and as
the get default for missing fields. -/
def emptyCell : JVal := .prim (.s "")

/-- The variant-row construction inside the variant branch of the main
loop: leading columns, then each product field looked up in the
flattened product with empty-string default, then each variant field
looked up in the flattened variant with empty-string default. The
variant must be a dict: flatten_dict on anything else raises (none). -/
def buildVariantRow (product_url title description : String)
    (flattened_product : Record) (product_fields variant_fields : List String)
    (variant : JVal) : Option (List JVal) :=
  match variant with
  | .obj vfields =>
    let flattened_variant := flatten_dict vfields "" "_"
    some ([JVal.prim (.s product_url), JVal.prim (.s title), JVal.prim (.s description)]
      ++ product_fields.map (fun field => dictGetD flattened_product field emptyCell)
      ++ variant_fields.map (fun field => dictGetD flattened_variant field emptyCell))
  | _ => none

/-- Sequential Option-valued map, modelling a Python for loop whose
body can raise: the first exception aborts the whole run (none). -/
def optionMapList (f : α → Option β) : List α → Option (List β)
  | [] => some []
  | a :: rest =>
    match f a, optionMapList f rest with
    | some b, some bs => some (b :: bs)
    | _, _ => none

/-- The rows the main loop writes for one resolved product (source
lines 168 to 195): flatten the product; in variant mode with a
variants key present, one row per variant via buildVariantRow (the
value under the variants key is iterated the way Python would); and
otherwise a single product row of leading columns plus the product
fields with empty-string defaults. -/
def rowsForProduct (with_variants : Bool) (product_url title description : String)
    (complete : Record) (product_fields variant_fields : List String) :
    Option (List (List JVal)) :=
  let flattened_product := flatten_dict complete "" "_"
  match with_variants, alGet complete "variants" with
  | true, some vv =>
    match pyIterate vv with
    | some variants =>
      optionMapList
        (buildVariantRow product_url title description flattened_product
          product_fields variant_fields) variants
    | none => none
  | _, _ =>
    some [[JVal.prim (.s product_url), JVal.prim (.s title), JVal.prim (.s description)]
      ++ product_fields.map (fun field => dictGetD flattened_product field emptyCell)]

/-- The network, seen from the script: the listing endpoint per page
number (an Except error is any exception urlopen or the JSON decode
may raise), the per-product JSON endpoint keyed by product URL (none
is any exception, caught and turned into None by the source), and the
HTML meta-tag fetch, which the source converts to a pair of strings in
every case (empty strings on failure). -/
structure World where
  fetchPage : Nat → Except Unit (List Record)
  fetchProduct : String → Option Record
  fetchTags : String → String × String

/-- get_page: returns the products array of the page, or the empty
list when the fetch or parse raised. -/
def get_page (w : World) (page : Nat) : List Record :=
  match w.fetchPage page with
  | .ok products => products
  | .error _ => []

/-- get_complete_product_data: the per-product JSON fetch, None on any
failure. -/
def get_complete_product_data (w : World) (product_url : String) : Option Record :=
  w.fetchProduct product_url

/-- The body of the main loop for one summary product: read the handle
(a missing or non-string handle is an uncaught exception, none), fetch
meta tags and the complete record, skip the product when the record is
None or falsy (an empty dict), otherwise build its rows. Returns the
rows written and the increments of total_products and total_variants. -/
def processProduct (w : World) (base_url : String)
    (product_fields variant_fields : List String) (with_variants : Bool)
    (product : Record) : Option (List (List JVal) × Nat × Nat) :=
  match alGet product "handle" with
  | some (.prim (.s handle)) =>
    let product_url := base_url ++ "/products/" ++ handle
    let (title, description) := w.fetchTags product_url
    match get_complete_product_data w product_url with
    | none => some ([], 0, 0)
    | some complete =>
      if complete.isEmpty then some ([], 0, 0)
      else
        match rowsForProduct with_variants product_url title description complete
            product_fields variant_fields with
        | none => none
        | some rows =>
          some (rows, 1,
            match with_variants, alGet complete "variants" with
            | true, some _ => rows.length
            | _, _ => 0)
  | _ => none

/-- One page of the main loop: process each summary product in order,
concatenating rows and summing the counter increments. -/
def processPage (w : World) (base_url : String)
    (product_fields variant_fields : List String) (with_variants : Bool) :
    List Record → Option (List (List JVal) × Nat × Nat)
  | [] => some ([], 0, 0)
  | product :: rest =>
    match processProduct w base_url product_fields variant_fields with_variants product,
        processPage w base_url product_fields variant_fields with_variants rest with
    | some (rows, dp, dv), some (rows2, dp2, dv2) =>
      some (rows ++ rows2, dp + dp2, dv + dv2)
    | _, _ => none

/-- The observable result of the pagination loop: the rows written, the
two final counters, the pages whose fetch was attempted, and the pages
whose products were processed. -/
structure LoopResult where
  rows : List (List JVal)
  totalProducts : Nat
  totalVariants : Nat
  fetchedPages : List Nat
  processedPages : List Nat
deriving Repr, DecidableEq

/-- The while loop over pages (source lines 150 to 200), with explicit
fuel standing for the a priori unbounded iteration count: fetch the
page; if it is empty the loop ends; otherwise process its products and
move to the next page. The fetched and processed page lists are
recorded so termination behavior can be stated. -/
def scrapeLoop (w : World) (base_url : String)
    (product_fields variant_fields : List String) (with_variants : Bool) :
    Nat → Nat → LoopResult → Option LoopResult
  | 0, _, _ => none
  | fuel + 1, page, acc =>
    let products := get_page w page
    let acc1 : LoopResult := { acc with fetchedPages := acc.fetchedPages ++ [page] }
    if products.isEmpty then some acc1
    else
      match processPage w base_url product_fields variant_fields with_variants products with
      | none => none
      | some (rows, dp, dv) =>
        scrapeLoop w base_url product_fields variant_fields with_variants fuel (page + 1)
          { rows := acc1.rows ++ rows
            totalProducts := acc1.totalProducts + dp
            totalVariants := acc1.totalVariants + dv
            fetchedPages := acc1.fetchedPages
            processedPages := acc1.processedPages ++ [page] }

/-- The sampling loop over the first few summary products (source
lines 111 to 117): resolve each, keep the truthy complete records, and
extend the variant sample with the value under the variants key when
that key is present and truthy (extend iterates the value; iterating a
truthy non-iterable raises, none). -/
def sampleCollect (w : World) (base_url : String) :
    List Record → Option (List Record × List JVal)
  | [] => some ([], [])
  | product :: rest =>
    match alGet product "handle" with
    | some (.prim (.s handle)) =>
      let product_url := base_url ++ "/products/" ++ handle
      match get_complete_product_data w product_url with
      | none => sampleCollect w base_url rest
      | some complete =>
        if complete.isEmpty then sampleCollect w base_url rest
        else
          match sampleCollect w base_url rest with
          | none => none
          | some (cs, vs) =>
            match alGet complete "variants" with
            | some vv =>
              if pyTruthy vv then
                match pyIterate vv with
                | some newvs => some (complete :: cs, newvs ++ vs)
                | none => none
              else some (complete :: cs, vs)
            | none => some (complete :: cs, vs)
    | _ => none

/-- The observable outcome of one run of the script. usage is the
no-URL path: print the usage line and exit 0, no CSV touched.
abortedNoProducts is the empty-first-page path: print the error and
exit 1, before any field discovery and before the CSV file is opened.
completed carries the CSV header, the data rows in order, and the two
final counters printed in the summary. -/
inductive Outcome where
  | usage
  | abortedNoProducts
  | completed (header : List String) (rows : List (List JVal))
      (totalProducts totalVariants : Nat)
deriving Repr, DecidableEq

/-- The whole script: argument check, first-page sample, empty-sample
abort, field discovery over the first three resolved samples, header
construction, and the pagination loop starting at page 1. none models
an uncaught exception (or exhausted fuel). -/
def runScraper (w : World) (website_url : Option String) (with_variants : Bool)
    (fuel : Nat) : Option Outcome :=
  match website_url with
  | none => some .usage
  | some base_url =>
    let sample_products := get_page w 1
    if sample_products.isEmpty then some .abortedNoProducts
    else
      match sampleCollect w base_url (sample_products.take 3) with
      | none => none
      | some (sample_complete_products, sample_variants) =>
        let product_fields := get_all_product_fields sample_complete_products
        let variant_fields :=
          if with_variants then get_all_variant_fields sample_variants else []
        let header := headerCols product_fields variant_fields with_variants
        match scrapeLoop w base_url product_fields variant_fields with_variants
            fuel 1 ⟨[], 0, 0, [], []⟩ with
        | none => none
        | some res =>
          some (.completed header res.rows res.totalProducts res.totalVariants)

/-- Number of items carrying a given key. -/
def countKeys (l : List (String × JVal)) (k : String) : Nat :=
  l.countP (fun p => p.1 == k)

/-- Python isinstance(v, (str, int, float, bool)) or None: a scalar
leaf. -/
def JVal.isPrim : JVal → Bool
  | .prim _ => true
  | _ => false

/-- Joint key-shape statement for the three mutually recursive parts of
the flattener, bounded by the size of the argument: every key produced
for a value under combined key nk extends nk; with a nonempty parent
key, every key produced by the field loop extends parent key and
separator; every key produced by the enumerate loop extends the list
key and an underscore. -/
def FlattenKeyShape (n : Nat) : Prop :=
  (∀ (v : JVal) (sep nk : String), sizeOf v ≤ n →
    ∀ p ∈ flattenV sep nk v, ∃ t, p.1 = nk ++ t)
  ∧ (∀ (d : List (String × JVal)) (sep pk : String), sizeOf d ≤ n → pk ≠ "" →
    ∀ p ∈ flattenFields sep pk d, ∃ t, p.1 = pk ++ sep ++ t)
  ∧ (∀ (l : List JVal) (sep nk : String) (i : Nat), sizeOf l ≤ n →
    ∀ p ∈ flattenArrD sep nk i l, ∃ t, p.1 = nk ++ "_" ++ t)

/-- A small concrete network for exercising the pagination loop: page
1 holds one product, page 2 is empty, page 4 is again nonempty (but is
never reached), and every other page fetch raises; the per-product
endpoints all fail, so each listed product is skipped. -/
def pagingWorld : World :=
  ⟨fun n =>
      if n = 1 then Except.ok [[("handle", JVal.prim (.s "a"))]]
      else if n = 2 then Except.ok []
      else if n = 4 then Except.ok [[("handle", JVal.prim (.s "b"))]]
      else Except.error (),
    fun _ => none,
    fun _ => ("", "")⟩

/-! Lemmas about the Python dict model. -/

/-- Membership in a dictInsert step comes from the accumulator or is
the inserted pair itself. -/
theorem mem_dictInsert {acc : List (String × JVal)} {q p : String × JVal}
    (h : p ∈ dictInsert acc q) : p ∈ acc ∨ p = q := by
  unfold dictInsert at h
  split at h
  · rcases List.mem_map.mp h with ⟨p0, hp0, hup⟩
    by_cases hk : p0.1 = q.1
    · rw [if_pos hk] at hup
      right
      rw [← hup, Prod.ext_iff]
      exact ⟨hk, rfl⟩
    · rw [if_neg hk] at hup
      exact Or.inl (hup ▸ hp0)
  · rcases List.mem_append.mp h with h1 | h1
    · exact Or.inl h1
    · exact Or.inr (List.mem_singleton.mp h1)

/-- Every pair of the built dict occurs among the items it was built
from. -/
theorem mem_of_mem_pydict {items : List (String × JVal)} {p : String × JVal}
    (h : p ∈ pydict items) : p ∈ items := by
  suffices H : ∀ (l acc : List (String × JVal)) (p : String × JVal),
      p ∈ l.foldl dictInsert acc → p ∈ acc ∨ p ∈ l by
    rcases H items [] p h with h1 | h1
    · cases h1
    · exact h1
  intro l
  induction l with
  | nil => intro acc p h; exact Or.inl h
  | cons q rest ih =>
    intro acc p h
    rcases ih (dictInsert acc q) p h with h1 | h1
    · rcases mem_dictInsert h1 with h2 | h2
      · exact Or.inl h2
      · exact Or.inr (by simp [h2])
    · exact Or.inr (List.mem_cons_of_mem _ h1)

/-- The update map inside dictInsert leaves the key list unchanged. -/
theorem keysOf_update (acc : List (String × JVal)) (q : String × JVal) :
    keysOf (List.map (fun p => if p.1 = q.1 then (p.1, q.2) else p) acc) = keysOf acc := by
  unfold keysOf
  rw [List.map_map]
  congr 1
  funext p
  by_cases hk : p.1 = q.1 <;> simp [hk]

/-- Keys of a dictInsert step. -/
theorem mem_keysOf_dictInsert {acc : List (String × JVal)} {q : String × JVal}
    {k : String} :
    k ∈ keysOf (dictInsert acc q) ↔ k ∈ keysOf acc ∨ k = q.1 := by
  unfold dictInsert
  split
  next h =>
    rw [keysOf_update]
    constructor
    · exact Or.inl
    · rintro (hm | hm)
      · exact hm
      · rcases List.any_eq_true.mp h with ⟨p0, hp0, hq⟩
        have hq : p0.1 = q.1 := by simpa using hq
        subst hm
        rw [← hq]
        exact List.mem_map.mpr ⟨p0, hp0, rfl⟩
  next h =>
    simp [keysOf]

/-- Keys of the built dict are exactly the keys of the item list. -/
theorem mem_keysOf_pydict {items : List (String × JVal)} {k : String} :
    k ∈ keysOf (pydict items) ↔ k ∈ keysOf items := by
  suffices H : ∀ (l acc : List (String × JVal)) (k : String),
      k ∈ keysOf (l.foldl dictInsert acc) ↔ k ∈ keysOf acc ∨ k ∈ keysOf l by
    constructor
    · intro h
      rcases (H items [] k).mp h with h1 | h1
      · cases h1
      · exact h1
    · intro h
      exact (H items [] k).mpr (Or.inr h)
  intro l
  induction l with
  | nil => intro acc k; simp [keysOf]
  | cons q rest ih =>
    intro acc k
    rw [List.foldl_cons, ih, mem_keysOf_dictInsert]
    constructor
    · rintro ((h | h) | h)
      · exact Or.inl h
      · exact Or.inr (by simp [keysOf, h])
      · exact Or.inr (by simp [keysOf] at h ⊢; exact Or.inr h)
    · rintro (h | h)
      · exact Or.inl (Or.inl h)
      · simp only [keysOf, List.map_cons, List.mem_cons] at h
        rcases h with h | h
        · exact Or.inl (Or.inr h)
        · exact Or.inr h

/-- Lookup distributes over append. -/
theorem alGet_append (l1 l2 : List (String × JVal)) (k : String) :
    alGet (l1 ++ l2) k = match alGet l1 k with
      | some v => some v
      | none => alGet l2 k := by
  induction l1 with
  | nil => simp [alGet]
  | cons p rest ih =>
    rw [List.cons_append]
    by_cases hk : p.1 = k
    · cases p
      simp_all [alGet]
    · cases p
      simp_all [alGet]

/-- A key absent from the key list looks up to none. -/
theorem alGet_eq_none_of_not_mem {l : List (String × JVal)} {k : String}
    (h : k ∉ keysOf l) : alGet l k = none := by
  induction l with
  | nil => rfl
  | cons p rest ih =>
    simp only [keysOf, List.map_cons, List.mem_cons, not_or] at h
    simp only [alGet]
    rw [if_neg (fun hh => h.1 hh.symm)]
    exact ih (by simpa [keysOf] using h.2)

/-- Updating the value at one key makes that key look up to the new
value, provided the key is present. -/
theorem alGet_update_self :
    ∀ (acc : List (String × JVal)) (k : String) (v : JVal), k ∈ keysOf acc →
    alGet (acc.map (fun p => if p.1 = k then (p.1, v) else p)) k = some v := by
  intro acc
  induction acc with
  | nil => intro k v h; simp [keysOf] at h
  | cons p rest ih =>
    intro k v h
    rw [List.map_cons]
    by_cases hk : p.1 = k
    · rw [if_pos hk]
      simp [alGet, hk]
    · rw [if_neg hk]
      simp only [alGet]
      rw [if_neg hk]
      apply ih
      simp only [keysOf, List.map_cons, List.mem_cons] at h
      rcases h with h | h
      · exact absurd h.symm hk
      · exact h

/-- Updating the value at one key leaves lookups of other keys
unchanged. -/
theorem alGet_update_other :
    ∀ (acc : List (String × JVal)) (q1 : String) (v : JVal) (key : String),
    q1 ≠ key →
    alGet (acc.map (fun p => if p.1 = q1 then (p.1, v) else p)) key = alGet acc key := by
  intro acc
  induction acc with
  | nil => intro q1 v key h; rfl
  | cons p rest ih =>
    intro q1 v key h
    rw [List.map_cons]
    by_cases hpq : p.1 = q1
    · have hk : ¬ p.1 = key := fun hh => h (hpq ▸ hh)
      rw [if_pos hpq]
      simp only [alGet]
      rw [if_neg hk, if_neg hk]
      exact ih q1 v key h
    · rw [if_neg hpq]
      simp only [alGet]
      by_cases hk : p.1 = key
      · rw [if_pos hk, if_pos hk]
      · rw [if_neg hk, if_neg hk]
        exact ih q1 v key h

/-- Inserting a pair makes its key look up to its value. -/
theorem alGet_dictInsert_self (acc : List (String × JVal)) (k : String) (v : JVal) :
    alGet (dictInsert acc (k, v)) k = some v := by
  unfold dictInsert
  split
  next h =>
    have hmem : k ∈ keysOf acc := by
      rcases List.any_eq_true.mp h with ⟨p0, hp0, hq⟩
      have hq : p0.1 = k := by simpa using hq
      rw [← hq]
      exact List.mem_map.mpr ⟨p0, hp0, rfl⟩
    exact alGet_update_self acc k v hmem
  next h =>
    have hnot : k ∉ keysOf acc := by
      intro hmem
      apply h
      rcases List.mem_map.mp hmem with ⟨p0, hp0, hfst⟩
      exact List.any_eq_true.mpr ⟨p0, hp0, by simp [hfst]⟩
    rw [alGet_append, alGet_eq_none_of_not_mem hnot]
    simp [alGet]

/-- Inserting a pair with a different key leaves a lookup unchanged. -/
theorem alGet_dictInsert_other (acc : List (String × JVal)) (q : String × JVal)
    (key : String) (h : q.1 ≠ key) :
    alGet (dictInsert acc q) key = alGet acc key := by
  unfold dictInsert
  split
  next hmem =>
    exact alGet_update_other acc q.1 q.2 key h
  next hmem =>
    rw [alGet_append]
    cases hv : alGet acc key with
    | some v => rfl
    | none => simp [alGet, h]

/-- A key with no item never changes under the fold that builds the
dict. -/
theorem foldl_dictInsert_of_countKeys_zero :
    ∀ (l acc : List (String × JVal)) (k : String), countKeys l k = 0 →
    alGet (l.foldl dictInsert acc) k = alGet acc k := by
  intro l
  induction l with
  | nil => intro acc k h; rfl
  | cons p rest ih =>
    intro acc k h
    unfold countKeys at h
    rw [List.countP_cons] at h
    by_cases hk : p.1 = k
    · simp [hk] at h
    · have hrest : countKeys rest k = 0 := by
        unfold countKeys
        simp only [beq_iff_eq, hk, if_false] at h
        simpa using h
      rw [List.foldl_cons, ih (dictInsert acc p) k hrest,
        alGet_dictInsert_other acc p k hk]

/-- When a key occurs on exactly one item, the built dict binds it to
that item value (the collision-free case of dict(items)). -/
theorem pydict_lookup_of_countKeys_one {l : List (String × JVal)} {k : String}
    {v : JVal} (h1 : countKeys l k = 1) (h2 : (k, v) ∈ l) :
    alGet (pydict l) k = some v := by
  suffices H : ∀ (l acc : List (String × JVal)) (k : String) (v : JVal),
      countKeys l k = 1 → (k, v) ∈ l →
      alGet (l.foldl dictInsert acc) k = some v from H l [] k v h1 h2
  intro l
  induction l with
  | nil => intro acc k v h1 h2; cases h2
  | cons p rest ih =>
    intro acc k v h1 h2
    unfold countKeys at h1
    rw [List.countP_cons] at h1
    by_cases hk : p.1 = k
    · have hrest : countKeys rest k = 0 := by
        unfold countKeys
        simp only [beq_iff_eq, hk, if_true, if_pos] at h1
        omega
      have hv : p = (k, v) := by
        rcases List.mem_cons.mp h2 with hh | hh
        · exact hh.symm
        · exfalso
          have := List.countP_eq_zero.mp hrest _ hh
          simp at this
      rw [List.foldl_cons, foldl_dictInsert_of_countKeys_zero rest _ k hrest, hv,
        alGet_dictInsert_self]
    · have hrest : countKeys rest k = 1 := by
        unfold countKeys
        simp only [beq_iff_eq, hk, if_false] at h1
        simpa using h1
      have hmem : (k, v) ∈ rest := by
        rcases List.mem_cons.mp h2 with hh | hh
        · exact absurd (congrArg Prod.fst hh.symm) hk
        · exact hh
      rw [List.foldl_cons]
      exact ih (dictInsert acc p) k v hrest hmem

/-! Structural lemmas about the flattener. -/

/-- A nonempty string has positive length. -/
theorem length_pos_of_ne_empty {s : String} (h : s ≠ "") : 0 < s.length := by
  cases s with
  | mk data =>
    cases data with
    | nil => exact absurd rfl h
    | cons c cs => simp [String.length]

/-- A key of the shape a, underscore, b is never the empty string. -/
theorem append_underscore_ne_empty (a b : String) : a ++ "_" ++ b ≠ "" := by
  intro h
  have hlen := congrArg String.length h
  simp [String.length_append] at hlen
  exact absurd hlen.1.2 (by decide)

/-- A key extending nk with a nonempty separator and more differs from
nk. -/
theorem key_extension_ne (nk sep t : String) (hsep : sep ≠ "") :
    nk ++ sep ++ t ≠ nk := by
  intro h
  have hlen := congrArg String.length h
  simp [String.length_append] at hlen
  have := length_pos_of_ne_empty hsep
  omega

theorem flattenKeyShape : ∀ n, FlattenKeyShape n := by
  intro n
  induction n using Nat.strong_induction_on with
  | _ n ih =>
    refine ⟨?_, ?_, ?_⟩
    · intro v sep nk hsz p hp
      match v with
      | .prim x =>
        rw [List.mem_singleton.mp hp]
        exact ⟨"", by simp⟩
      | .obj fields =>
        have hlt : sizeOf fields < n := by
          have : sizeOf fields < sizeOf (JVal.obj fields) := by simp
          omega
        have hp2 := mem_of_mem_pydict (by simpa [flattenV] using hp)
        by_cases hnk : nk = ""
        · subst hnk
          exact ⟨p.1, by have he : "" ++ p.1 = p.1 := rfl; rw [he]⟩
        · rcases (ih (sizeOf fields) hlt).2.1 fields sep nk le_rfl hnk p hp2 with ⟨t, ht⟩
          exact ⟨sep ++ t, by rw [ht, String.append_assoc]⟩
      | .arr [] =>
        rw [List.mem_singleton.mp hp]
        exact ⟨"", by simp⟩
      | .arr (e :: es) =>
        rw [flattenV] at hp
        split at hp
        · have hlt : sizeOf (e :: es) < n := by
            have : sizeOf (e :: es) < sizeOf (JVal.arr (e :: es)) := by simp
            omega
          rcases (ih (sizeOf (e :: es)) hlt).2.2 (e :: es) sep nk 0 le_rfl p hp with ⟨t, ht⟩
          exact ⟨"_" ++ t, by rw [ht, String.append_assoc]⟩
        · rw [List.mem_singleton.mp hp]
          exact ⟨"", by simp⟩
    · intro d sep pk hsz hpk p hp
      match d with
      | [] => cases hp
      | (k, v) :: rest =>
        rw [flattenFields, if_neg hpk] at hp
        rcases List.mem_append.mp hp with hp1 | hp1
        · have hlt : sizeOf v < n := by
            have : sizeOf v < sizeOf ((k, v) :: rest) := by simp; omega
            omega
          rcases (ih (sizeOf v) hlt).1 v sep (pk ++ sep ++ k) le_rfl p hp1 with ⟨t, ht⟩
          exact ⟨k ++ t, by rw [ht, String.append_assoc, String.append_assoc]⟩
        · have hlt : sizeOf rest < n := by
            have : sizeOf rest < sizeOf ((k, v) :: rest) := by simp
            omega
          exact (ih (sizeOf rest) hlt).2.1 rest sep pk le_rfl hpk p hp1
    · intro l sep nk i hsz p hp
      match l with
      | [] => cases hp
      | item :: rest =>
        have hrest : ∀ q ∈ flattenArrD sep nk (i + 1) rest, ∃ t, q.1 = nk ++ "_" ++ t := by
          have hlt : sizeOf rest < n := by
            have : sizeOf rest < sizeOf (item :: rest) := by simp
            omega
          exact (ih (sizeOf rest) hlt).2.2 rest sep nk (i + 1) le_rfl
        cases item with
        | obj f =>
          simp only [flattenArrD] at hp
          rcases List.mem_append.mp hp with hp1 | hp1
          · have hlt : sizeOf f < n := by
              have h2 : sizeOf f + 1 < sizeOf (JVal.obj f :: rest) := by simp; omega
              omega
            have hp2 := mem_of_mem_pydict hp1
            rcases (ih (sizeOf f) hlt).2.1 f sep (nk ++ "_" ++ toString i) le_rfl
              (append_underscore_ne_empty nk (toString i)) p hp2 with ⟨t, ht⟩
            refine ⟨toString i ++ sep ++ t, ?_⟩
            rw [ht]
            simp [String.append_assoc]
          · exact hrest p hp1
        | prim x =>
          simp only [flattenArrD] at hp
          rcases List.mem_append.mp hp with hp1 | hp1
          · rw [List.mem_singleton.mp hp1]
            exact ⟨toString i, rfl⟩
          · exact hrest p hp1
        | arr es =>
          simp only [flattenArrD] at hp
          rcases List.mem_append.mp hp with hp1 | hp1
          · rw [List.mem_singleton.mp hp1]
            exact ⟨toString i, rfl⟩
          · exact hrest p hp1

/-- The contribution of one item of the record is part of the item
stream of the field loop. -/
theorem mem_flattenFields_of_mem :
    ∀ (d : List (String × JVal)) (sep pk k : String) (v : JVal) (p : String × JVal),
    (k, v) ∈ d → p ∈ flattenV sep (if pk = "" then k else pk ++ sep ++ k) v →
    p ∈ flattenFields sep pk d := by
  intro d
  induction d with
  | nil => intro sep pk k v p h hp; cases h
  | cons q rest ih =>
    intro sep pk k v p h hp
    rcases List.mem_cons.mp h with h1 | h1
    · subst h1
      rw [flattenFields]
      exact List.mem_append.mpr (Or.inl hp)
    · match q with
      | (k2, v2) =>
        rw [flattenFields]
        exact List.mem_append.mpr (Or.inr (ih sep pk k v p h1 hp))

/-- An element of the enumerate loop that is a dict contributes its
flattened items under the index-suffixed key. -/
theorem flattenArrD_mem_of_obj :
    ∀ (l : List JVal) (sep nk : String) (i j : Nat) (f : List (String × JVal))
      (p : String × JVal), l[j]? = some (.obj f) →
    p ∈ pydict (flattenFields sep (nk ++ "_" ++ toString (i + j)) f) →
    p ∈ flattenArrD sep nk i l := by
  intro l
  induction l with
  | nil => intro sep nk i j f p h hp; simp at h
  | cons item rest ih =>
    intro sep nk i j f p h hp
    cases j with
    | zero =>
      have hitem : item = .obj f := by simpa using h
      subst hitem
      simp only [flattenArrD]
      refine List.mem_append.mpr (Or.inl ?_)
      simpa using hp
    | succ j =>
      have h2 : rest[j]? = some (.obj f) := by simpa using h
      have harith : i + (j + 1) = (i + 1) + j := by omega
      rw [harith] at hp
      have hmem := ih sep nk (i + 1) j f p h2 hp
      cases item with
      | obj f0 =>
        simp only [flattenArrD]
        exact List.mem_append.mpr (Or.inr hmem)
      | prim x =>
        simp only [flattenArrD]
        exact List.mem_append.mpr (Or.inr hmem)
      | arr es =>
        simp only [flattenArrD]
        exact List.mem_append.mpr (Or.inr hmem)

/-- An element of the enumerate loop that is not a dict is emitted
unchanged under the index-suffixed key. -/
theorem flattenArrD_mem_of_nonobj :
    ∀ (l : List JVal) (sep nk : String) (i j : Nat) (v : JVal),
    l[j]? = some v → v.isDict = false →
    (nk ++ "_" ++ toString (i + j), v) ∈ flattenArrD sep nk i l := by
  intro l
  induction l with
  | nil => intro sep nk i j v h hd; simp at h
  | cons item rest ih =>
    intro sep nk i j v h hd
    cases j with
    | zero =>
      have hitem : item = v := by simpa using h
      subst hitem
      cases item with
      | obj f0 => simp [JVal.isDict] at hd
      | prim x =>
        simp only [flattenArrD]
        exact List.mem_append.mpr (Or.inl (by simp))
      | arr es =>
        simp only [flattenArrD]
        exact List.mem_append.mpr (Or.inl (by simp))
    | succ j =>
      have h2 : rest[j]? = some v := by simpa using h
      have harith : i + (j + 1) = (i + 1) + j := by omega
      rw [harith]
      have hmem := ih sep nk (i + 1) j v h2 hd
      cases item with
      | obj f0 =>
        simp only [flattenArrD]
        exact List.mem_append.mpr (Or.inr hmem)
      | prim x =>
        simp only [flattenArrD]
        exact List.mem_append.mpr (Or.inr hmem)
      | arr es =>
        simp only [flattenArrD]
        exact List.mem_append.mpr (Or.inr hmem)

/-! Lemmas about the sequential Option map. -/

/-- A successful sequential map produces as many outputs as inputs. -/
theorem optionMapList_length {f : α → Option β} :
    ∀ {l : List α} {bs : List β}, optionMapList f l = some bs → bs.length = l.length := by
  intro l
  induction l with
  | nil => intro bs h; cases h; rfl
  | cons a rest ih =>
    intro bs h
    rw [optionMapList] at h
    cases hfa : f a with
    | none => rw [hfa] at h; cases h
    | some b =>
      rw [hfa] at h
      cases hrest : optionMapList f rest with
      | none => rw [hrest] at h; cases h
      | some bs2 =>
        rw [hrest] at h
        cases h
        simp [ih hrest]

/-- Every output of a successful sequential map comes from some input. -/
theorem optionMapList_mem {f : α → Option β} :
    ∀ {l : List α} {bs : List β}, optionMapList f l = some bs →
    ∀ b ∈ bs, ∃ a ∈ l, f a = some b := by
  intro l
  induction l with
  | nil => intro bs h b hb; cases h; cases hb
  | cons a rest ih =>
    intro bs h b hb
    rw [optionMapList] at h
    cases hfa : f a with
    | none => rw [hfa] at h; cases h
    | some b0 =>
      rw [hfa] at h
      cases hrest : optionMapList f rest with
      | none => rw [hrest] at h; cases h
      | some bs2 =>
        rw [hrest] at h
        cases h
        rcases List.mem_cons.mp hb with hb1 | hb1
        · exact ⟨a, List.mem_cons_self a rest, by rw [hfa, hb1]⟩
        · rcases ih hrest b hb1 with ⟨a2, ha2, hfa2⟩
          exact ⟨a2, List.mem_cons_of_mem a ha2, hfa2⟩

/-- A sequential map whose body never fails on the inputs succeeds. -/
theorem optionMapList_total {f : α → Option β} :
    ∀ {l : List α}, (∀ a ∈ l, (f a).isSome) →
    ∃ bs, optionMapList f l = some bs := by
  intro l
  induction l with
  | nil => intro h; exact ⟨[], rfl⟩
  | cons a rest ih =>
    intro h
    rcases Option.isSome_iff_exists.mp (h a (List.mem_cons_self a rest)) with ⟨b, hb⟩
    rcases ih (fun x hx => h x (List.mem_cons_of_mem a hx)) with ⟨bs, hbs⟩
    exact ⟨b :: bs, by rw [optionMapList, hb, hbs]⟩

/-! The Python string comparison agrees with the lexicographic linear
order on String. -/

theorem charListLe_iff_le : ∀ l1 l2 : List Char, charListLe l1 l2 = true ↔ l1 ≤ l2 := by
  intro l1
  induction l1 with
  | nil =>
    intro l2
    simp [charListLe]
  | cons a as ih =>
    intro l2
    cases l2 with
    | nil =>
      simp only [charListLe, Bool.false_eq_true, false_iff, not_le]
      exact List.nil_lt_cons a as
    | cons b bs =>
      rw [charListLe]
      by_cases hab : a < b
      · rw [if_pos hab]
        simp only [true_iff]
        exact le_of_lt (List.Lex.rel hab)
      · rw [if_neg hab]
        by_cases heq : a = b
        · subst heq
          rw [if_pos rfl, ih bs]
          constructor
          · intro h
            rw [← not_lt] at h ⊢
            intro hlt
            apply h
            cases hlt with
            | cons h2 => exact h2
            | rel h2 => exact absurd h2 (lt_irrefl a)
          · intro h
            rw [← not_lt] at h ⊢
            intro hlt
            exact h (List.Lex.cons hlt)
        · rw [if_neg heq]
          simp only [Bool.false_eq_true, false_iff, not_le]
          have hba : b < a := by
            rcases lt_trichotomy a b with h | h | h
            · exact absurd h hab
            · exact absurd h heq
            · exact h
          exact List.Lex.rel hba

/-- pyStrLe is the linear order on String. -/
theorem pyStrLe_iff_le (a b : String) : pyStrLe a b ↔ a ≤ b := by
  rw [pyStrLe, String.le_iff_toList_le]
  exact charListLe_iff_le a.data b.data

instance : IsTotal String pyStrLe :=
  ⟨fun a b => by
    rw [pyStrLe_iff_le, pyStrLe_iff_le]
    exact le_total a b⟩

instance : IsTrans String pyStrLe :=
  ⟨fun a b c hab hbc => by
    rw [pyStrLe_iff_le] at hab hbc ⊢
    exact le_trans hab hbc⟩

/-! Lemmas about the set model used by field discovery. -/

/-- Membership after one set insertion. -/
theorem mem_setAdd {s : List String} {x y : String} :
    y ∈ setAdd s x ↔ y ∈ s ∨ y = x := by
  unfold setAdd
  split
  next h =>
    constructor
    · exact Or.inl
    · rintro (hm | hm)
      · exact hm
      · exact hm ▸ h
  next h => simp

/-- Membership after adding a whole list. -/
theorem mem_setUpdate {xs : List String} :
    ∀ {s : List String} {y : String}, y ∈ setUpdate s xs ↔ y ∈ s ∨ y ∈ xs := by
  induction xs with
  | nil => intro s y; simp [setUpdate]
  | cons x rest ih =>
    intro s y
    rw [setUpdate, List.foldl_cons]
    rw [show List.foldl setAdd (setAdd s x) rest = setUpdate (setAdd s x) rest from rfl]
    rw [ih, mem_setAdd]
    constructor
    · rintro ((h | h) | h)
      · exact Or.inl h
      · exact Or.inr (by simp [h])
      · exact Or.inr (List.mem_cons_of_mem _ h)
    · rintro (h | h)
      · exact Or.inl (Or.inl h)
      · rcases List.mem_cons.mp h with h1 | h1
        · exact Or.inl (Or.inr h1)
        · exact Or.inr h1

/-- Set insertion preserves freedom from duplicates. -/
theorem nodup_setAdd {s : List String} (h : s.Nodup) (x : String) :
    (setAdd s x).Nodup := by
  unfold setAdd
  split
  next hm => exact h
  next hm => simp [List.nodup_append, h, hm]

/-- Adding a whole list preserves freedom from duplicates. -/
theorem nodup_setUpdate {xs : List String} :
    ∀ {s : List String}, s.Nodup → (setUpdate s xs).Nodup := by
  induction xs with
  | nil => intro s h; exact h
  | cons x rest ih =>
    intro s h
    rw [setUpdate, List.foldl_cons]
    exact ih (nodup_setAdd h x)

/-- Membership in the accumulated key set of field discovery. -/
theorem mem_discovery_fold {samples : List Record} :
    ∀ {acc : List String} {y : String},
    y ∈ samples.foldl
      (fun all_fields product => setUpdate all_fields (keysOf (flatten_dict product "" "_")))
      acc
    ↔ y ∈ acc ∨ ∃ p ∈ samples, y ∈ keysOf (flatten_dict p "" "_") := by
  induction samples with
  | nil => intro acc y; simp
  | cons q rest ih =>
    intro acc y
    rw [List.foldl_cons, ih, mem_setUpdate]
    constructor
    · rintro ((h | h) | h)
      · exact Or.inl h
      · exact Or.inr ⟨q, by simp, h⟩
      · rcases h with ⟨p, hp, hk⟩
        exact Or.inr ⟨p, List.mem_cons_of_mem _ hp, hk⟩
    · rintro (h | h)
      · exact Or.inl (Or.inl h)
      · rcases h with ⟨p, hp, hk⟩
        rcases List.mem_cons.mp hp with h1 | h1
        · exact Or.inl (Or.inr (h1 ▸ hk))
        · exact Or.inr ⟨p, h1, hk⟩

/-- The accumulated key set of field discovery is duplicate-free. -/
theorem nodup_discovery_fold {samples : List Record} :
    ∀ {acc : List String}, acc.Nodup →
    (samples.foldl
      (fun all_fields product => setUpdate all_fields (keysOf (flatten_dict product "" "_")))
      acc).Nodup := by
  induction samples with
  | nil => intro acc h; exact h
  | cons q rest ih =>
    intro acc h
    rw [List.foldl_cons]
    exact ih (nodup_setUpdate h)

/-- C3 counterexample: the claim says flattening a record with a nested
record under key k never produces an output key equal to k. In the
record with keys x_y (nested record) and x (nested record with field
y), the entry under x flattens to the output key x_y, equal to the
parent key x_y of the first nested record: the flattened mapping does
contain the key x_y (bound by the colliding entry). The input is a
genuine dict: its keys are distinct. -/
theorem c3_nested_key_cex :
    (keysOf [("x_y", JVal.obj [("b", JVal.prim (.i 1))]),
             ("x", JVal.obj [("y", JVal.prim (.i 2))])]).Nodup
    ∧ alGet [("x_y", JVal.obj [("b", JVal.prim (.i 1))]),
             ("x", JVal.obj [("y", JVal.prim (.i 2))])] "x_y"
        = some (JVal.obj [("b", JVal.prim (.i 1))])
    ∧ "x_y" ∈ keysOf (flatten_dict
        [("x_y", JVal.obj [("b", JVal.prim (.i 1))]),
         ("x", JVal.obj [("y", JVal.prim (.i 2))])] "" "_") := by
  decide

/-- C3 (amended): the entry binding key k to a nested record itself
contributes only output keys that extend k with the separator (hence
never the key k, for nonempty k); an output key equal to k can only
come from another entry of the record whose flattening collides on k
(as in the counterexample). On the example record, flattening yields
exactly the keys a_b and a_c with the nested leaf values, and no key
a. -/
theorem c3_nested_keys_extend (k : String) (m : List (String × JVal)) (hk : k ≠ "") :
    (∀ p ∈ flattenV "_" k (JVal.obj m), ∃ t, p.1 = k ++ "_" ++ t ∧ p.1 ≠ k)
    ∧ (∀ (d : Record), (k, JVal.obj m) ∈ d →
        ∀ p ∈ flattenV "_" k (JVal.obj m), p ∈ flattenFields "_" "" d)
    ∧ flatten_dict [("a", JVal.obj [("b", JVal.prim (.i 1)), ("c", JVal.prim (.i 2))])] "" "_"
        = [("a_b", JVal.prim (.i 1)), ("a_c", JVal.prim (.i 2))]
    ∧ "a" ∉ keysOf (flatten_dict
        [("a", JVal.obj [("b", JVal.prim (.i 1)), ("c", JVal.prim (.i 2))])] "" "_") := by
  refine ⟨?_, ?_, by decide, by decide⟩
  · intro p hp
    have hp2 := mem_of_mem_pydict (by simpa [flattenV] using hp)
    rcases (flattenKeyShape (sizeOf m)).2.1 m "_" k le_rfl hk p hp2 with ⟨t, ht⟩
    refine ⟨t, ht, ?_⟩
    rw [ht]
    exact key_extension_ne k "_" t (by decide)
  · intro d hd p hp
    exact mem_flattenFields_of_mem d "_" "" k (JVal.obj m) p hd (by simpa using hp)

/-- C3 witness: the amended statement applied to the nested record
with key a and field b. -/
theorem c3_nested_keys_extend_witness :
    ("a" : String) ≠ ""
    ∧ (∃ t, ("a_b" : String) = "a" ++ "_" ++ t ∧ ("a_b" : String) ≠ "a") :=
  ⟨by decide,
    (c3_nested_keys_extend "a" [("b", JVal.prim (.i 1))] (by decide)).1
      ("a_b", JVal.prim (.i 1)) (by decide)⟩

/-- C4 counterexample: the claim says flatten maps a key bound to a
sequence of scalars to the bar-joined string of the elements. In the
record with keys a_b (a list of scalars) and a (a nested record with
field b), the joined string x|y for key a_b is overwritten by the
colliding entry under a, and the final mapping binds a_b to z instead.
The input is a genuine dict: its keys are distinct. -/
theorem c4_scalar_list_cex :
    (keysOf [("a_b", JVal.arr [JVal.prim (.s "x"), JVal.prim (.s "y")]),
             ("a", JVal.obj [("b", JVal.prim (.s "z"))])]).Nodup
    ∧ alGet [("a_b", JVal.arr [JVal.prim (.s "x"), JVal.prim (.s "y")]),
             ("a", JVal.obj [("b", JVal.prim (.s "z"))])] "a_b"
        = some (JVal.arr [JVal.prim (.s "x"), JVal.prim (.s "y")])
    ∧ joinBar (([JVal.prim (.s "x"), JVal.prim (.s "y")]).map JVal.pyStr) = "x|y"
    ∧ alGet (flatten_dict
        [("a_b", JVal.arr [JVal.prim (.s "x"), JVal.prim (.s "y")]),
         ("a", JVal.obj [("b", JVal.prim (.s "z"))])] "" "_") "a_b"
        = some (JVal.prim (.s "z"))
    ∧ ("z" : String) ≠ "x|y" := by
  decide

/-- C4 (amended): for a key k bound to a sequence of scalars, the
flattened item stream always pairs k with the bar-joined string of the
element string forms (the empty sequence giving the empty string), and
the final mapping binds k to that string provided no other entry of
the record flattens to an item with the same key k (the collision that
overwrites it in the counterexample). -/
theorem c4_scalar_list_join (d : Record) (k : String) (vs : List JVal)
    (hmem : (k, JVal.arr vs) ∈ d)
    (hprim : ∀ v ∈ vs, v.isPrim = true)
    (hunique : countKeys (flattenFields "_" "" d) k = 1) :
    (k, JVal.prim (.s (joinBar (vs.map JVal.pyStr)))) ∈ flattenFields "_" "" d
    ∧ alGet (flatten_dict d "" "_") k = some (JVal.prim (.s (joinBar (vs.map JVal.pyStr))))
    ∧ (vs = [] → joinBar (vs.map JVal.pyStr) = "") := by
  have hpair : (k, JVal.prim (.s (joinBar (vs.map JVal.pyStr)))) ∈ flattenV "_" k (JVal.arr vs) := by
    cases vs with
    | nil => simp [flattenV, joinBar]
    | cons v rest =>
      have hv := hprim v (List.mem_cons_self v rest)
      cases v with
      | prim x => simp [flattenV, JVal.isDict]
      | obj f => simp [JVal.isPrim] at hv
      | arr es => simp [JVal.isPrim] at hv
  have hstream := mem_flattenFields_of_mem d "_" "" k (JVal.arr vs) _ hmem (by simpa using hpair)
  refine ⟨hstream, ?_, ?_⟩
  · rw [flatten_dict]
    exact pydict_lookup_of_countKeys_one hunique hstream
  · intro h
    subst h
    rfl

/-- C4 witness: the amended statement applied to the record binding
tags to the scalar list x, y; the joined value is x|y. -/
theorem c4_scalar_list_join_witness :
    ("tags", JVal.arr [JVal.prim (.s "x"), JVal.prim (.s "y")])
      ∈ ([("tags", JVal.arr [JVal.prim (.s "x"), JVal.prim (.s "y")])] : Record)
    ∧ countKeys (flattenFields "_" ""
        [("tags", JVal.arr [JVal.prim (.s "x"), JVal.prim (.s "y")])]) "tags" = 1
    ∧ alGet (flatten_dict
        [("tags", JVal.arr [JVal.prim (.s "x"), JVal.prim (.s "y")])] "" "_") "tags"
        = some (JVal.prim (.s "x|y")) :=
  ⟨by decide, by decide, by
    have h := (c4_scalar_list_join
      [("tags", JVal.arr [JVal.prim (.s "x"), JVal.prim (.s "y")])] "tags"
      [JVal.prim (.s "x"), JVal.prim (.s "y")]
      (by decide) (by decide) (by decide)).2.1
    simpa using h⟩

/-- C5: for a key k bound to a nonempty sequence of records, flatten
recurses into the element at each positional index j under the prefix
k, underscore, j: every item of the flattened element under that
prefix is in the item stream of the whole record, and its key is a key
of the final flattened mapping, one column family per positional
index. On the example record the output is exactly images_0_src u1 and
images_1_src u2. -/
theorem c5_record_list_indexed (d : Record) (k : String) (e0 : JVal) (es : List JVal)
    (hmem : (k, JVal.arr (e0 :: es)) ∈ d)
    (hobj : ∀ v ∈ e0 :: es, v.isDict = true) :
    (∀ (j : Nat) (f : List (String × JVal)), (e0 :: es)[j]? = some (JVal.obj f) →
      ∀ p ∈ pydict (flattenFields "_" (k ++ "_" ++ toString j) f),
        p ∈ flattenFields "_" "" d ∧ p.1 ∈ keysOf (flatten_dict d "" "_"))
    ∧ flatten_dict [("images", JVal.arr
        [JVal.obj [("src", JVal.prim (.s "u1"))], JVal.obj [("src", JVal.prim (.s "u2"))]])] "" "_"
        = [("images_0_src", JVal.prim (.s "u1")), ("images_1_src", JVal.prim (.s "u2"))] := by
  refine ⟨?_, by decide⟩
  intro j f hj p hp
  have he0 : e0.isDict = true := hobj e0 (List.mem_cons_self e0 es)
  have hin : p ∈ flattenArrD "_" k 0 (e0 :: es) := by
    refine flattenArrD_mem_of_obj (e0 :: es) "_" k 0 j f p hj ?_
    rw [Nat.zero_add]
    exact hp
  have hinV : p ∈ flattenV "_" k (JVal.arr (e0 :: es)) := by
    rw [flattenV, if_pos he0]
    exact hin
  have hstream := mem_flattenFields_of_mem d "_" "" k (JVal.arr (e0 :: es)) p hmem
    (by simpa using hinV)
  refine ⟨hstream, ?_⟩
  rw [flatten_dict]
  exact mem_keysOf_pydict.mpr (List.mem_map.mpr ⟨p, hstream, rfl⟩)

/-- C5 witness: the statement applied to the images example at index 1,
whose flattened pair images_1_src u2 sits in the item stream and whose
key is a column of the final mapping. -/
theorem c5_record_list_indexed_witness :
    ("images_1_src", JVal.prim (.s "u2"))
      ∈ flattenFields "_" "" [("images", JVal.arr
        [JVal.obj [("src", JVal.prim (.s "u1"))], JVal.obj [("src", JVal.prim (.s "u2"))]])]
    ∧ "images_1_src" ∈ keysOf (flatten_dict [("images", JVal.arr
        [JVal.obj [("src", JVal.prim (.s "u1"))], JVal.obj [("src", JVal.prim (.s "u2"))]])] "" "_") :=
  (c5_record_list_indexed
    [("images", JVal.arr
      [JVal.obj [("src", JVal.prim (.s "u1"))], JVal.obj [("src", JVal.prim (.s "u2"))]])]
    "images" (JVal.obj [("src", JVal.prim (.s "u1"))]) [JVal.obj [("src", JVal.prim (.s "u2"))]]
    (by decide) (by decide)).1
    1 [("src", JVal.prim (.s "u2"))] (by decide)
    ("images_1_src", JVal.prim (.s "u2")) (by decide)

/-- C6: field discovery returns the sorted duplicate-free union of the
flattened keys of all samples: the result is strictly sorted in the
lexicographic order on strings, has no duplicates, contains exactly
the keys appearing in some flattened sample, and on the two-sample
example the column set is a, b. -/
theorem c6_discovery_sorted_union (samples : List Record) :
    (get_all_product_fields samples).Sorted (fun a b => a < b)
    ∧ (get_all_product_fields samples).Nodup
    ∧ (∀ s, s ∈ get_all_product_fields samples
        ↔ ∃ p ∈ samples, s ∈ keysOf (flatten_dict p "" "_"))
    ∧ get_all_product_fields [[("a", JVal.prim (.i 1))], [("b", JVal.prim (.i 2))]]
        = ["a", "b"] := by
  haveI htot : IsTotal String pyStrLe := ⟨fun a b => by
    rw [pyStrLe_iff_le, pyStrLe_iff_le]
    exact le_total a b⟩
  haveI htrans : IsTrans String pyStrLe := ⟨fun a b c hab hbc => by
    rw [pyStrLe_iff_le] at hab hbc ⊢
    exact le_trans hab hbc⟩
  have hperm := List.perm_insertionSort pyStrLe
    (samples.foldl
      (fun all_fields product => setUpdate all_fields (keysOf (flatten_dict product "" "_")))
      [])
  have hnd : (get_all_product_fields samples).Nodup := by
    rw [get_all_product_fields]
    exact hperm.nodup_iff.mpr (nodup_discovery_fold List.nodup_nil)
  have hsortedLe : (get_all_product_fields samples).Sorted pyStrLe := by
    rw [get_all_product_fields]
    exact List.sorted_insertionSort pyStrLe _
  refine ⟨?_, hnd, ?_, by decide⟩
  · have h1 : (get_all_product_fields samples).Pairwise
        (fun a b => pyStrLe a b ∧ a ≠ b) := hsortedLe.and hnd
    exact h1.imp (fun hab => lt_of_le_of_ne ((pyStrLe_iff_le _ _).mp hab.1) hab.2)
  · intro s
    rw [get_all_product_fields, hperm.mem_iff, mem_discovery_fold]
    simp

/-- C10: for a nonempty list value under key k, flatten dispatches on
the first element only. If the first element is a dict, the enumerate
loop runs: a dict element at index j contributes its flattened items
under the prefix k, underscore, j, and a non-dict element at index j
is emitted unchanged under that index key. If the first element is not
a dict, the whole list is joined into one bar-separated string under
k, any dict elements entering through their Python string form. The
two concrete records exercise both sides: a mixed list headed by a
dict yields a_0_x and a_1, and the same elements headed by the scalar
yield the single joined string under a, with the dict shown in its
display form. -/
theorem c10_list_dispatch_on_head (d : Record) (k : String) (e : JVal) (es : List JVal)
    (hmem : (k, JVal.arr (e :: es)) ∈ d) :
    (e.isDict = false →
      (k, JVal.prim (.s (joinBar ((e :: es).map JVal.pyStr)))) ∈ flattenFields "_" "" d)
    ∧ (e.isDict = true →
      (∀ (j : Nat) (v : JVal), (e :: es)[j]? = some v → v.isDict = false →
        (k ++ "_" ++ toString j, v) ∈ flattenFields "_" "" d)
      ∧ (∀ (j : Nat) (f : List (String × JVal)), (e :: es)[j]? = some (JVal.obj f) →
        ∀ p ∈ pydict (flattenFields "_" (k ++ "_" ++ toString j) f),
          p ∈ flattenFields "_" "" d))
    ∧ flatten_dict [("a", JVal.arr [JVal.obj [("x", JVal.prim (.i 1))], JVal.prim (.i 2)])] "" "_"
        = [("a_0_x", JVal.prim (.i 1)), ("a_1", JVal.prim (.i 2))]
    ∧ flatten_dict [("a", JVal.arr [JVal.prim (.i 2), JVal.obj [("x", JVal.prim (.i 1))]])] "" "_"
        = [("a", JVal.prim (.s ("2|\x7b" ++ String.mk [Char.ofNat 39] ++ "x"
            ++ String.mk [Char.ofNat 39] ++ ": 1\x7d")))] := by
  refine ⟨?_, ?_, by decide, by decide⟩
  · intro hnd
    have hpair : (k, JVal.prim (.s (joinBar ((e :: es).map JVal.pyStr))))
        ∈ flattenV "_" k (JVal.arr (e :: es)) := by
      rw [flattenV, if_neg (by simp [hnd])]
      simp
    exact mem_flattenFields_of_mem d "_" "" k (JVal.arr (e :: es)) _ hmem (by simpa using hpair)
  · intro hd
    constructor
    · intro j v hj hv
      have hin : (k ++ "_" ++ toString j, v) ∈ flattenArrD "_" k 0 (e :: es) := by
        have := flattenArrD_mem_of_nonobj (e :: es) "_" k 0 j v hj hv
        rwa [Nat.zero_add] at this
      have hinV : (k ++ "_" ++ toString j, v) ∈ flattenV "_" k (JVal.arr (e :: es)) := by
        rw [flattenV, if_pos hd]
        exact hin
      exact mem_flattenFields_of_mem d "_" "" k (JVal.arr (e :: es)) _ hmem (by simpa using hinV)
    · intro j f hj p hp
      have hin : p ∈ flattenArrD "_" k 0 (e :: es) := by
        refine flattenArrD_mem_of_obj (e :: es) "_" k 0 j f p hj ?_
        rw [Nat.zero_add]
        exact hp
      have hinV : p ∈ flattenV "_" k (JVal.arr (e :: es)) := by
        rw [flattenV, if_pos hd]
        exact hin
      exact mem_flattenFields_of_mem d "_" "" k (JVal.arr (e :: es)) p hmem (by simpa using hinV)

/-- C10 witness: the dispatch statement applied to the mixed list
headed by a dict: the non-dict element at index 1 is emitted unchanged
as a_1, and the dict element at index 0 contributes a_0_x. -/
theorem c10_list_dispatch_witness :
    ("a_1", JVal.prim (.i 2))
      ∈ flattenFields "_" "" [("a", JVal.arr [JVal.obj [("x", JVal.prim (.i 1))], JVal.prim (.i 2)])]
    ∧ ("a_0_x", JVal.prim (.i 1))
      ∈ flattenFields "_" "" [("a", JVal.arr [JVal.obj [("x", JVal.prim (.i 1))], JVal.prim (.i 2)])] := by
  have h := (c10_list_dispatch_on_head
    [("a", JVal.arr [JVal.obj [("x", JVal.prim (.i 1))], JVal.prim (.i 2)])]
    "a" (JVal.obj [("x", JVal.prim (.i 1))]) [JVal.prim (.i 2)] (by decide)).2.1 (by decide)
  constructor
  · have h1 := h.1 1 (JVal.prim (.i 2)) (by decide) (by decide)
    simpa using h1
  · have h2 := h.2 0 [("x", JVal.prim (.i 1))] (by decide)
      ("a_0_x", JVal.prim (.i 1)) (by decide)
    simpa using h2

/-- C1 counterexample: the claim says every row has exactly header
length values in either mode with arbitrary fields absent. In variant
mode, a resolved record that lacks the variants key falls into the
single-product-row branch, which emits a row of only three leading
cells plus the product fields: with one product field and one
discovered variant field the row has 4 values against a header of 5,
so the row is shorter than the header. -/
theorem c1_row_length_cex :
    (rowsForProduct true "u" "t" "d" [("title", JVal.prim (.s "T"))] ["title"] ["id"]).map
        (fun rows => rows.map List.length) = some [4]
    ∧ (headerCols ["title"] ["id"] true).length = 5
    ∧ (4 : Nat) ≠ 5 := by
  decide

/-- C1 (amended): every row built for a resolved product has exactly
header length values, in non-variant mode unconditionally, and in
variant mode provided the record contains the variants key; a record
without it yields a single row of three plus the number of product
fields, shorter than the header whenever variant columns exist (the
counterexample). -/
theorem c1_row_length_matches_header (wv : Bool) (purl t dsc : String)
    (complete : Record) (pf vf : List String) (rows : List (List JVal))
    (hrows : rowsForProduct wv purl t dsc complete pf vf = some rows)
    (hvk : wv = true → (alGet complete "variants").isSome) :
    ∀ row ∈ rows, row.length = (headerCols pf vf wv).length := by
  intro row hrow
  cases wv with
  | false =>
    rw [rowsForProduct.eq_def] at hrows
    simp only [Option.some.injEq] at hrows
    subst hrows
    rcases List.mem_singleton.mp hrow with rfl
    simp [headerCols]
  | true =>
    rcases Option.isSome_iff_exists.mp (hvk rfl) with ⟨vv, hvv⟩
    rw [rowsForProduct.eq_def, hvv] at hrows
    simp only [] at hrows
    cases hit : pyIterate vv with
    | none => rw [hit] at hrows; cases hrows
    | some variants =>
      rw [hit] at hrows
      rcases optionMapList_mem hrows row hrow with ⟨variant, hvmem, hbuild⟩
      cases variant with
      | obj vfields =>
        rw [buildVariantRow] at hbuild
        simp only [Option.some.injEq] at hbuild
        subst hbuild
        simp [headerCols]
      | prim x => cases hbuild
      | arr es => cases hbuild

/-- C1 witness: the amended statement applied in non-variant mode to a
record with the one product field title; the row has the four header
cells. -/
theorem c1_row_length_witness :
    rowsForProduct false "u" "t" "d" [("title", JVal.prim (.s "T"))] ["title"] []
      = some [[JVal.prim (.s "u"), JVal.prim (.s "t"), JVal.prim (.s "d"), JVal.prim (.s "T")]]
    ∧ ([JVal.prim (.s "u"), JVal.prim (.s "t"), JVal.prim (.s "d"), JVal.prim (.s "T")]).length
      = (headerCols ["title"] [] false).length :=
  ⟨by decide,
    c1_row_length_matches_header false "u" "t" "d" [("title", JVal.prim (.s "T"))]
      ["title"] []
      [[JVal.prim (.s "u"), JVal.prim (.s "t"), JVal.prim (.s "d"), JVal.prim (.s "T")]]
      (by decide) (fun h => nomatch h)
      [JVal.prim (.s "u"), JVal.prim (.s "t"), JVal.prim (.s "d"), JVal.prim (.s "T")]
      (by decide)⟩

/-- C2: in variant mode, a resolved record whose variants key holds a
list of N variant dicts yields exactly N rows (zero rows when the list
is empty), and every row agrees on the three leading cells and the
product columns, so rows of one product differ only in the variant
columns. -/
theorem c2_variant_rows (purl t dsc : String) (complete : Record)
    (pf vf : List String) (vs : List JVal)
    (hv : alGet complete "variants" = some (JVal.arr vs))
    (hobj : ∀ v ∈ vs, v.isDict = true) :
    ∃ rows, rowsForProduct true purl t dsc complete pf vf = some rows
      ∧ rows.length = vs.length
      ∧ (vs = [] → rows = [])
      ∧ ∀ row ∈ rows, row.take (3 + pf.length)
          = [JVal.prim (.s purl), JVal.prim (.s t), JVal.prim (.s dsc)]
            ++ pf.map (fun field => dictGetD (flatten_dict complete "" "_") field emptyCell) := by
  have htotal : ∀ v ∈ vs,
      (buildVariantRow purl t dsc (flatten_dict complete "" "_") pf vf v).isSome := by
    intro v hvmem
    have := hobj v hvmem
    cases v with
    | obj vfields => rw [buildVariantRow]; rfl
    | prim x => simp [JVal.isDict] at this
    | arr es => simp [JVal.isDict] at this
  rcases optionMapList_total htotal with ⟨rows, hrows⟩
  refine ⟨rows, ?_, ?_, ?_, ?_⟩
  · rw [rowsForProduct.eq_def, hv]
    simp only []
    simpa [pyIterate] using hrows
  · rw [optionMapList_length hrows]
  · intro hnil
    subst hnil
    cases hrows
    rfl
  · intro row hrow
    rcases optionMapList_mem hrows row hrow with ⟨variant, hvmem, hbuild⟩
    have := hobj variant hvmem
    cases variant with
    | obj vfields =>
      rw [buildVariantRow] at hbuild
      simp only [Option.some.injEq] at hbuild
      subst hbuild
      have hlen : ([JVal.prim (.s purl), JVal.prim (.s t), JVal.prim (.s dsc)]
          ++ pf.map (fun field => dictGetD (flatten_dict complete "" "_") field emptyCell)).length
          = 3 + pf.length := by simp; omega
      rw [← hlen, List.take_left]
    | prim x => simp [JVal.isDict] at this
    | arr es => simp [JVal.isDict] at this

/-- C2 witness: the statement applied to a record with two variant
dicts: two rows, both sharing the same leading and product cells. -/
theorem c2_variant_rows_witness :
    alGet [("variants", JVal.arr [JVal.obj [("id", JVal.prim (.i 1))],
        JVal.obj [("id", JVal.prim (.i 2))]])] "variants"
      = some (JVal.arr [JVal.obj [("id", JVal.prim (.i 1))], JVal.obj [("id", JVal.prim (.i 2))]])
    ∧ ∃ rows, rowsForProduct true "u" "t" "d"
        [("variants", JVal.arr [JVal.obj [("id", JVal.prim (.i 1))],
          JVal.obj [("id", JVal.prim (.i 2))]])] [] ["id"] = some rows
      ∧ rows.length = 2
      ∧ ∀ row ∈ rows, row.take 3
          = [JVal.prim (.s "u"), JVal.prim (.s "t"), JVal.prim (.s "d")] := by
  refine ⟨by decide, ?_⟩
  rcases c2_variant_rows "u" "t" "d"
      [("variants", JVal.arr [JVal.obj [("id", JVal.prim (.i 1))],
        JVal.obj [("id", JVal.prim (.i 2))]])] [] ["id"]
      [JVal.obj [("id", JVal.prim (.i 1))], JVal.obj [("id", JVal.prim (.i 2))]]
      (by decide) (by decide) with ⟨rows, h1, h2, h3, h4⟩
  exact ⟨rows, h1, h2, fun row hrow => by simpa using h4 row hrow⟩

/-- C7: when the first page fetch raises or returns no records, the
run prints the error and exits with failure status before any field
discovery and before the CSV file is opened: the outcome is the
abortedNoProducts exit, which carries no header and no rows. -/
theorem c7_empty_first_page_aborts (w : World) (base_url : String) (wv : Bool)
    (fuel : Nat)
    (hfail : w.fetchPage 1 = Except.error () ∨ w.fetchPage 1 = Except.ok []) :
    runScraper w (some base_url) wv fuel = some Outcome.abortedNoProducts := by
  have h1 : get_page w 1 = [] := by
    rcases hfail with h | h <;> simp [get_page, h]
  rw [runScraper, h1]
  rfl

/-- C7 witness: a world whose first page fetch raises makes the run
abort with failure. -/
theorem c7_empty_first_page_aborts_witness :
    runScraper ⟨fun _ => Except.error (), fun _ => none, fun _ => ("", "")⟩
      (some "https://shop.example") true 5 = some Outcome.abortedNoProducts :=
  c7_empty_first_page_aborts ⟨fun _ => Except.error (), fun _ => none, fun _ => ("", "")⟩
    "https://shop.example" true 5 (Or.inl rfl)

/-- C9: a summary product whose detail fetch fails is skipped: the
loop body emits no rows for it and increments neither the product nor
the variant counter, and processing a page that starts with such a
product produces exactly what processing the remaining products does,
so the run continues with the next item instead of aborting. -/
theorem c9_failed_detail_skips_product (w : World) (base_url : String)
    (pf vf : List String) (wv : Bool) (product : Record) (rest : List Record)
    (handle : String)
    (hh : alGet product "handle" = some (JVal.prim (.s handle)))
    (hfail : w.fetchProduct (base_url ++ "/products/" ++ handle) = none) :
    processProduct w base_url pf vf wv product = some ([], 0, 0)
    ∧ processPage w base_url pf vf wv (product :: rest)
        = processPage w base_url pf vf wv rest := by
  have h1 : processProduct w base_url pf vf wv product = some ([], 0, 0) := by
    rw [processProduct.eq_def, hh]
    simp only []
    rw [get_complete_product_data, hfail]
  refine ⟨h1, ?_⟩
  rw [processPage, h1]
  cases hrest : processPage w base_url pf vf wv rest with
  | none => rfl
  | some r =>
    rcases r with ⟨rows, dp, dv⟩
    simp

/-- C9 witness: with a detail endpoint that always fails, a one-product
page contributes nothing and the page result equals that of the empty
page. -/
theorem c9_failed_detail_skips_witness :
    processProduct ⟨fun _ => Except.ok [], fun _ => none, fun _ => ("", "")⟩
      "https://shop.example" ["title"] [] false [("handle", JVal.prim (.s "a"))]
      = some ([], 0, 0)
    ∧ processPage ⟨fun _ => Except.ok [], fun _ => none, fun _ => ("", "")⟩
      "https://shop.example" ["title"] [] false [[("handle", JVal.prim (.s "a"))]]
      = processPage ⟨fun _ => Except.ok [], fun _ => none, fun _ => ("", "")⟩
      "https://shop.example" ["title"] [] false [] :=
  c9_failed_detail_skips_product ⟨fun _ => Except.ok [], fun _ => none, fun _ => ("", "")⟩
    "https://shop.example" ["title"] [] false [("handle", JVal.prim (.s "a"))] [] "a"
    (by decide) rfl

/-- One full run of the pagination loop: if the page at offset K from
the start is the first empty one and every earlier body succeeds, the
loop returns, having fetched exactly the pages up to and including the
empty one and processed exactly the pages before it. -/
theorem scrapeLoop_spec (w : World) (b : String) (pf vf : List String) (wv : Bool) :
    ∀ (K fuel start : Nat) (acc : LoopResult),
    get_page w (start + K) = [] →
    (∀ m, m < K → get_page w (start + m) ≠ []) →
    (∀ m, m < K → (processPage w b pf vf wv (get_page w (start + m))).isSome) →
    K + 1 ≤ fuel →
    ∃ r, scrapeLoop w b pf vf wv fuel start acc = some r
      ∧ r.fetchedPages = acc.fetchedPages ++ List.range' start (K + 1)
      ∧ r.processedPages = acc.processedPages ++ List.range' start K := by
  intro K
  induction K with
  | zero =>
    intro fuel start acc hempty hne hbody hfuel
    cases fuel with
    | zero => omega
    | succ f =>
      rw [Nat.add_zero] at hempty
      refine ⟨{ acc with fetchedPages := acc.fetchedPages ++ [start] }, ?_, by simp, by simp⟩
      simp [scrapeLoop, hempty]
  | succ K ih =>
    intro fuel start acc hempty hne hbody hfuel
    cases fuel with
    | zero => omega
    | succ f =>
      have hne0 : get_page w start ≠ [] := by
        have h := hne 0 (by omega)
        rwa [Nat.add_zero] at h
      have hbody0 : (processPage w b pf vf wv (get_page w start)).isSome := by
        have h := hbody 0 (by omega)
        rwa [Nat.add_zero] at h
      rcases Option.isSome_iff_exists.mp hbody0 with ⟨res, hres⟩
      rcases res with ⟨rows, dp, dv⟩
      have hif : (get_page w start).isEmpty = false := by
        cases hg : get_page w start with
        | nil => exact absurd hg hne0
        | cons a l => rfl
      have hstep : scrapeLoop w b pf vf wv (f + 1) start acc
          = scrapeLoop w b pf vf wv f (start + 1)
            { rows := acc.rows ++ rows
              totalProducts := acc.totalProducts + dp
              totalVariants := acc.totalVariants + dv
              fetchedPages := acc.fetchedPages ++ [start]
              processedPages := acc.processedPages ++ [start] } := by
        rw [scrapeLoop.eq_def]
        simp [hif, hres]
      rcases ih f (start + 1)
          { rows := acc.rows ++ rows
            totalProducts := acc.totalProducts + dp
            totalVariants := acc.totalVariants + dv
            fetchedPages := acc.fetchedPages ++ [start]
            processedPages := acc.processedPages ++ [start] }
          (by have h : start + 1 + K = start + (K + 1) := by omega
              rw [h]; exact hempty)
          (by intro m hm
              have h : start + 1 + m = start + (m + 1) := by omega
              rw [h]; exact hne (m + 1) (by omega))
          (by intro m hm
              have h : start + 1 + m = start + (m + 1) := by omega
              rw [h]; exact hbody (m + 1) (by omega))
          (by omega) with ⟨r, hr, hf2, hp2⟩
      refine ⟨r, by rw [hstep]; exact hr, ?_, ?_⟩
      · rw [hf2]
        simp only [List.append_assoc, List.singleton_append]
        rw [← List.range'_succ]
      · rw [hp2]
        simp only [List.append_assoc, List.singleton_append]
        rw [← List.range'_succ]

/-- C8: the pagination loop, started at page 1, stops at the first
page N whose fetch yields no records or raises (a raising fetch being
converted to the empty page by get_page, the first conjunct). It
fetches exactly pages 1 through N and processes exactly pages 1
through N minus 1, never touching any later page, whatever those pages
would have held. -/
theorem c8_pagination_stops_at_first_empty (w : World) (b : String)
    (pf vf : List String) (wv : Bool) (N fuel : Nat)
    (hN1 : 1 ≤ N)
    (hNempty : get_page w N = [])
    (hbefore : ∀ m, 1 ≤ m → m < N → get_page w m ≠ [])
    (hbody : ∀ m, 1 ≤ m → m < N → (processPage w b pf vf wv (get_page w m)).isSome)
    (hfuel : N ≤ fuel) :
    (∀ (page : Nat) (e : Unit), w.fetchPage page = Except.error e → get_page w page = [])
    ∧ ∃ r, scrapeLoop w b pf vf wv fuel 1 ⟨[], 0, 0, [], []⟩ = some r
      ∧ r.fetchedPages = List.range' 1 N
      ∧ r.processedPages = List.range' 1 (N - 1) := by
  refine ⟨?_, ?_⟩
  · intro page e he
    simp [get_page, he]
  · rcases scrapeLoop_spec w b pf vf wv (N - 1) fuel 1 ⟨[], 0, 0, [], []⟩
      (by have h : 1 + (N - 1) = N := by omega
          rw [h]; exact hNempty)
      (fun m hm => hbefore (1 + m) (by omega) (by omega))
      (fun m hm => hbody (1 + m) (by omega) (by omega))
      (by omega) with ⟨r, hr, hf, hp⟩
    refine ⟨r, hr, ?_, ?_⟩
    · rw [hf]
      have h : N - 1 + 1 = N := by omega
      rw [h]
      exact List.nil_append _
    · rw [hp]
      exact List.nil_append _

/-- C8 witness: on the concrete network the loop stops at page 2 even
though page 4 is nonempty, fetching pages 1 and 2 and processing page
1 only. -/
theorem c8_pagination_witness :
    get_page pagingWorld 2 = []
    ∧ get_page pagingWorld 4 ≠ []
    ∧ ∃ r, scrapeLoop pagingWorld "https://shop.example" ["title"] [] false 5 1 ⟨[], 0, 0, [], []⟩
        = some r
      ∧ r.fetchedPages = List.range' 1 2
      ∧ r.processedPages = List.range' 1 (2 - 1) := by
  refine ⟨by decide, by decide, ?_⟩
  exact (c8_pagination_stops_at_first_empty pagingWorld "https://shop.example"
    ["title"] [] false 2 5 (by omega) (by decide)
    (fun m h1 h2 => by
      have hm : m = 1 := by omega
      subst hm
      decide)
    (fun m h1 h2 => by
      have hm : m = 1 := by omega
      subst hm
      decide)
    (by omega)).2
